import Mathlib

/-!
Shallow embedding of `ICL_Comet_tape_reader.py` (Datamuseum-DK), the decoder that
recovers ICL/METANIC COMET tape records from WAV audio.

Modelling conventions:
* Python `float` arithmetic on the bit-time estimate is modelled over `ℚ`
  (all constants involved — `EDGE = 0.72`, `AVG = 2`, `BPS = 225` — are exact).
* The bit characters `'0'` / `'1'` of `self.bits` are modelled as `Bool`
  (`false` for `'0'`, `true` for `'1'`).
* Byte strings are `List Nat`; Python text strings are `List Char` or `String`.
* Exceptions (IndexError, UnicodeDecodeError) are modelled by an `Option String`
  error component where a claim depends on them.
-/

namespace CometTape

/-- Zero-crossing threshold (`THRESHOLD = 2500`). -/
def THRESHOLD : Int := 2500

/-- PLL bit-time averaging divisor (`AVG = 2`). -/
def AVG : ℚ := 2

/-- Decision threshold as a fraction of bit-time (`EDGE = 0.72`). -/
def EDGE : ℚ := 0.72

/-- A-priori baud seed (`BPS = (300 + 150) / 2`). -/
def BPS : ℚ := (300 + 150) / 2

/-! ### CRC-16/ARC (`crcmod.predefined.mkPredefinedCrcFun("crc-16")`)
Reflected polynomial `0xA001`, initial value 0, no final xor. -/

/-- One shift-round of the bit-reflected CRC-16/ARC computation. -/
def crc16_round (c : Nat) : Nat :=
  if c % 2 = 1 then Nat.xor (c / 2) 0xA001 else c / 2

/-- Fold one data byte into the CRC accumulator (xor, then 8 shift-rounds). -/
def crc16_byte (c b : Nat) : Nat := crc16_round^[8] (Nat.xor c b)

/-- `crcfunc(data)`: CRC-16/ARC of a byte string, starting from 0. -/
def crcfunc (data : List Nat) : Nat := data.foldl crc16_byte 0

/-! ### Bit-to-byte packing (`CometTape.add_record`, lines 127-142) -/

/-- `int("".join(group[::-1]), 2)`: value of one bit group, first collected bit
as the low-order bit. -/
def byte_of_bits (bits : List Bool) : Nat :=
  bits.foldr (fun b acc => 2 * acc + (if b then 1 else 0)) 0

/-- Fuel-driven body of the packing loop; the fuel only bounds the number of
iterations (one per 8-bit group) and `pack_octets` always supplies enough. -/
def pack_octets_aux : Nat → List Bool → List Nat
  | 0, _ => []
  | _, [] => []
  | fuel + 1, bits => byte_of_bits (bits.take 8) :: pack_octets_aux fuel (bits.drop 8)

/-- The loop `for i in range(0, len(bits), 8): octets.append(...)`:
successive groups of (up to) 8 bits become bytes.  Note that a final group of
fewer than 8 bits still becomes a byte. -/
def pack_octets (bits : List Bool) : List Nat :=
  pack_octets_aux bits.length bits

/-- `add_record` without the state plumbing: `none` when the bit buffer is too
short (< 48 bits, silently discarded), otherwise the packed bytes with a single
trailing zero byte stripped (`if not octets[-1]: octets = octets[:-1]`). -/
def add_record (bits : List Bool) : Option (List Nat) :=
  if bits.length < 48 then none
  else
    let octets := pack_octets bits
    some (if octets.getLastD 0 = 0 then octets.dropLast else octets)

/-! ### The bit synchronizer state machine (`CometTape.analyze`, lines 74-125) -/

/-- The mutable state of one `CometTape.analyze` run: `self.tbit`, `self.bits`,
`self.records` and the local `nbr_priv`. -/
structure TapeState where
  tbit : ℚ
  bits : List Bool
  records : List (List Nat)
  nbr_priv : Nat
  deriving DecidableEq

/-- `self.tbit += (pulse_width - self.tbit) / AVG` (line 120). -/
def tbit_update (tbit pulse_width : ℚ) : ℚ :=
  tbit + (pulse_width - tbit) / AVG

/-- The state effect of one `self.add_record(...)` call: the bit buffer is
cleared, and a record is appended exactly when `add_record` produces one. -/
def finalize (s : TapeState) : TapeState :=
  match add_record s.bits with
  | none => { s with bits := [] }
  | some r => { s with bits := [], records := s.records ++ [r] }

/-- One iteration of the edge loop in `analyze` for the edge `e = (nbr, sign)`;
`pulse_width = nbr - nbr_priv` is written out as `(e.1 : ℚ) - (s.nbr_priv : ℚ)`
at each of its uses. -/
def stepEdge (rate : ℚ) (s : TapeState) (e : Nat × Int) : TapeState :=
  if ((e.1 : ℚ) - (s.nbr_priv : ℚ)) > 4 * s.tbit then
    if e.2 = 1 then
      { finalize s with nbr_priv := e.1, bits := [false], tbit := rate / BPS }
    else finalize s
  else if ((e.1 : ℚ) - (s.nbr_priv : ℚ)) < EDGE * s.tbit ∧ 7 < s.bits.length then
    s
  else
    { s with nbr_priv := e.1,
             tbit := tbit_update s.tbit ((e.1 : ℚ) - (s.nbr_priv : ℚ)),
             bits := s.bits ++ [if e.2 > 0 then false else true] }

/-- State at the start of `analyze`: fresh buffer and record list,
`tbit = rate / BPS`, `nbr_priv = 0`. -/
def initState (rate : ℚ) : TapeState :=
  { tbit := rate / BPS, bits := [], records := [], nbr_priv := 0 }

/-- Folding the edge loop over a list of edges from a given state. -/
def processEdges (rate : ℚ) (s : TapeState) (edges : List (Nat × Int)) : TapeState :=
  edges.foldl (stepEdge rate) s

/-- The whole of `analyze`: run the edge loop from the initial state, then the
final `self.add_record(nbr)` after the loop. -/
def analyze_edges (rate : ℚ) (edges : List (Nat × Int)) : TapeState :=
  finalize (processEdges rate (initState rate) edges)

/-! ### `CometTape.report_record` (lines 144-160) -/

/-- One decimal digit character (`'0'` .. `'9'`) of a number. -/
def decDigit (n : Nat) : Char :=
  match n % 10 with
  | 0 => '0' | 1 => '1' | 2 => '2' | 3 => '3' | 4 => '4'
  | 5 => '5' | 6 => '6' | 7 => '7' | 8 => '8' | _ => '9'

/-- Fuel-driven decimal rendering (most significant digit first); the fuel only
bounds the number of digits and `natDecChars` always supplies enough. -/
def natDecCharsAux : Nat → Nat → List Char
  | 0, _ => []
  | fuel + 1, n =>
      if n < 10 then [decDigit n]
      else natDecCharsAux fuel (n / 10) ++ [decDigit n]

/-- Decimal representation of a natural number, as Python `"%d"` renders it. -/
def natDecChars (n : Nat) : List Char := natDecCharsAux (n + 1) n

/-- Python `"%5d bytes" % n`: the decimal form right-justified to width 5. -/
def lenText (n : Nat) : List Char :=
  List.replicate (5 - (natDecChars n).length) ' ' ++ natDecChars n ++ " bytes".data

/-- One lowercase hexadecimal digit character. -/
def hexDigit (n : Nat) : Char :=
  match n with
  | 0 => '0' | 1 => '1' | 2 => '2' | 3 => '3' | 4 => '4'
  | 5 => '5' | 6 => '6' | 7 => '7' | 8 => '8' | 9 => '9'
  | 10 => 'a' | 11 => 'b' | 12 => 'c' | 13 => 'd' | 14 => 'e' | 15 => 'f'
  | _ => '*'

/-- The two hex characters of one byte, as `bytes.hex()` renders it. -/
def byteHexChars (b : Nat) : List Char := [hexDigit (b / 16 % 16), hexDigit (b % 16)]

/-- `octets.hex()`: lowercase hex dump of a byte string. -/
def bytesHex (bs : List Nat) : List Char := bs.foldr (fun b acc => byteHexChars b ++ acc) []

/-- The bracketed dump: full hex for at most 8 bytes, else the first four and
last four bytes around an ellipsis (lines 149-152). -/
def hexPart (octets : List Nat) : List Char :=
  if octets.length ≤ 8 then bytesHex octets
  else bytesHex (octets.take 4) ++ ['…'] ++ bytesHex (octets.drop (octets.length - 4))

/-- The flag-free part of the summary: `"%5d bytes" % len` then `" ["`, the hex
dump, and `"]"` (lines 147-153). -/
def recordSummaryBase (octets : List Nat) : List Char :=
  lenText octets.length ++ " [".data ++ hexPart octets ++ "]".data

/-- `report_record(octets)`: the summary text, with the three conditional flag
suffixes appended in source order (lines 154-159); each `if cond: text += flag`
is rendered as appending `if cond then flag else []`.  `octets[0]` is modelled
by `headI`, `octets[-1]` by `getLastD 0`, `octets[1:-1]` by
`(drop 1).dropLast`. -/
def report_record (octets : List Nat) : List Char :=
  ((recordSummaryBase octets ++
      (if octets.headI ≠ 0xaa then " Bad_preamble".data else [])) ++
      (if octets.getLastD 0 ≠ 0xaa then " Bad_postamble".data else [])) ++
      (if crcfunc ((octets.drop 1).dropLast) ≠ 0 then " Bad_CRC".data else [])

/-! ### `CometTape.write_tapfile` (lines 162-174) -/

/-- `struct.pack("<L", n)`: the four little-endian bytes of a 32-bit length. -/
def le32 (n : Nat) : List Nat :=
  [n % 256, n / 256 % 256, n / 65536 % 256, n / 16777216 % 256]

/-- The byte stream written by `write_tapfile`: per record the length word, the
record bytes, a zero pad byte when the length is odd, the length word again;
then the end-of-medium marker.  The fold mirrors the sequential `tap.write`
calls. -/
def write_tapfile (records : List (List Nat)) : List Nat :=
  (records.foldl
    (fun out rec =>
      out ++ le32 rec.length ++ rec ++
        (if rec.length % 2 = 1 then [0] else []) ++ le32 rec.length)
    []) ++ [0xff, 0xff, 0xff, 0xff]

/-- One record's frame as the spec describes it: 4-byte little-endian length,
raw bytes, a zero pad byte exactly when the length is odd, the length again.
Stated from the spec's words, for comparison with `write_tapfile`. -/
def tap_block (rec : List Nat) : List Nat :=
  le32 rec.length ++ rec ++ (if rec.length % 2 = 1 then [0] else []) ++ le32 rec.length

/-! ### `CometTape.interpret_tape_header` (lines 189-214) -/

/-- `bytes.decode('ASCII')`: succeeds exactly when every byte is below 128. -/
def pyDecodeAscii (bs : List Nat) : Option (List Char) :=
  if ∀ b ∈ bs, b < 128 then some (bs.map fun b => Char.ofNat b) else none

/-- Python `str.rstrip()`: drop trailing whitespace characters. -/
def pyRstrip (s : List Char) : List Char :=
  (s.reverse.dropWhile fun c =>
    c = ' ' ∨ c = '\t' ∨ c = '\n' ∨ c = '\r' ∨ c = '\x0b' ∨ c = '\x0c').reverse

/-- Fuel-driven body of the `while` loop over 26-byte file-entry slots
(lines 205-214).  Returns the yielded lines, the lines printed on a decode
failure, and an error marker when the slot-guard index access `head[index]` is
out of range (Python raises IndexError there: the guard reads `head[index]`
before testing `index <= len(head) - 29`).  The fuel only bounds the number of
iterations and `file_list` always supplies enough. -/
def file_list_aux : Nat → List Nat → Nat → List String × List String × Option String
  | 0, _, _ => ([], [], none)
  | fuel + 1, head, index =>
    if head.length ≤ index then ([], [], some "IndexError")
    else if 0x20 < head.getD index 0 ∧ head.getD index 0 < 0x6e ∧
        index + 29 ≤ head.length then
      match pyDecodeAscii ((head.drop index).take 10),
            pyDecodeAscii ((head.drop (index + 10)).take 3) with
      | some fn, some ext =>
          let rest := file_list_aux fuel head (index + 26)
          (("\t" ++ String.mk (pyRstrip fn) ++ "." ++ String.mk (pyRstrip ext))
              :: rest.1, rest.2.1, rest.2.2)
      | _, _ =>
          ([], ["Börk", String.mk (bytesHex ((head.drop index).take 26))], none)
    else ([], [], none)

/-- The slot loop of `interpret_tape_header` starting at `index`. -/
def file_list (head : List Nat) (index : Nat) :
    List String × List String × Option String :=
  file_list_aux (head.length + 1) head index

/-- `interpret_tape_header` on the first record: nothing when the magic bytes
do not match; otherwise decode the 50-byte label at offset 4, yield the label
lines and `"File list:"`, and run the slot loop from offset 67.  A non-ASCII
label byte raises (UnicodeDecodeError is only caught inside the loop). -/
def interpret_tape_header (head : List Nat) :
    List String × List String × Option String :=
  if head.getD 0 0 ≠ 0xaa then ([], [], none)
  else if head.getD 1 0 ≠ 0 then ([], [], none)
  else if head.getD 2 0 ≠ 0 then ([], [], none)
  else
    match pyDecodeAscii ((head.drop 4).take 50) with
    | none => ([], [], some "UnicodeDecodeError")
    | some label =>
        let rest := file_list head 67
        ("Tape label:" :: ("\t" ++ String.mk (pyRstrip label)) :: "File list:"
            :: rest.1, rest.2.1, rest.2.2)

/-! ### `WAVTrack.__iter__` (lines 273-287) -/

/-- Decode the 16-bit little-endian signed sample at byte offset `nbr`
(`samp = sound[nbr] + sound[nbr+1] * 256`, wrapped to signed). -/
def pySample (sound : List Nat) (nbr : Nat) : Int :=
  let v : Int := (sound.getD nbr 0 : Int) + (sound.getD (nbr + 1) 0 : Int) * 256
  if v > 32767 then v - 65536 else v

/-- The hysteresis update of the sign (lines 281-284): exceed `+THRESHOLD` and
the sign becomes `+1`, fall below `-THRESHOLD` and it becomes `-1`, inside the
band it is unchanged. -/
def newSign (prev : Int) (samp : Int) : Int :=
  if samp > THRESHOLD then 1 else if samp < -THRESHOLD then -1 else prev

/-- The zero-crossing scan over a list of byte offsets: emit `(nbr, sign)`
whenever the updated sign differs from the previously emitted one. -/
def zero_crossings (sound : List Nat) (idxs : List Nat) (prev : Int) :
    List (Nat × Int) :=
  match idxs with
  | [] => []
  | nbr :: rest =>
      let sign := newSign prev (pySample sound nbr)
      if sign ≠ prev then (nbr, sign) :: zero_crossings sound rest sign
      else zero_crossings sound rest sign

/-- Python `range(start, stop, step)` for a positive step. -/
def pyRange (start stop step : Nat) : List Nat :=
  List.range' start ((stop - start + step - 1) / step) step

/-- `WAVTrack.__iter__`: scan the samples at offsets
`offset, offset + span, ...` below `len(sound)`, starting from sign 0. -/
def wav_iter (sound : List Nat) (offset span : Nat) : List (Nat × Int) :=
  zero_crossings sound (pyRange offset sound.length span) 0

/-! ### Packing lemmas -/

theorem byte_of_bits_cons (b : Bool) (t : List Bool) :
    byte_of_bits (b :: t) = (if b then 1 else 0) + 2 * byte_of_bits t := by
  simp [byte_of_bits]
  omega

theorem byte_of_bits_sum (l : List Bool) :
    ∀ n : ℕ, l.length ≤ n →
      byte_of_bits l = ∑ j ∈ Finset.range n, (if l.getD j false then 2 ^ j else 0) := by
  induction l with
  | nil => intro n _; simp [byte_of_bits]
  | cons b t ih =>
      intro n hn
      cases n with
      | zero => simp at hn
      | succ m =>
          rw [byte_of_bits_cons, Finset.sum_range_succ']
          have h2 : ∀ j : ℕ,
              (if (b :: t).getD (j + 1) false then (2 : ℕ) ^ (j + 1) else 0) =
                2 * (if t.getD j false then 2 ^ j else 0) := by
            intro j
            simp only [List.getD_cons_succ]
            split <;> ring
          simp only [h2, ← Finset.mul_sum, List.getD_cons_zero]
          rw [← ih m (by simpa using hn)]
          cases b <;> simp <;> ring

theorem getD_take_of_lt {α : Type} (l : List α) (n m : ℕ) (d : α) (h : m < n) :
    (l.take n).getD m d = l.getD m d := by
  simp [List.getD_eq_getElem?_getD, List.getElem?_take, h]

theorem getD_drop_add {α : Type} (l : List α) (n m : ℕ) (d : α) :
    (l.drop n).getD m d = l.getD (n + m) d := by
  simp [List.getD_eq_getElem?_getD, List.getElem?_drop]

theorem pack_octets_aux_length :
    ∀ (fuel : ℕ) (bits : List Bool), bits.length ≤ fuel →
      (pack_octets_aux fuel bits).length = (bits.length + 7) / 8 := by
  intro fuel
  induction fuel with
  | zero =>
      intro bits h
      have : bits = [] := by
        cases bits with
        | nil => rfl
        | cons a t => simp at h
      subst this; simp [pack_octets_aux]
  | succ f ih =>
      intro bits h
      cases bits with
      | nil => simp [pack_octets_aux]
      | cons a t =>
          have hdrop : ((a :: t).drop 8).length ≤ f := by
            simp only [List.length_drop, List.length_cons]
            simp only [List.length_cons] at h
            omega
          simp only [pack_octets_aux, List.length_cons, ih _ hdrop, List.length_drop]
          omega

theorem pack_octets_length (bits : List Bool) :
    (pack_octets bits).length = (bits.length + 7) / 8 :=
  pack_octets_aux_length bits.length bits le_rfl

theorem pack_octets_aux_getD :
    ∀ (fuel : ℕ) (bits : List Bool) (k : ℕ), bits.length ≤ fuel →
      k < (bits.length + 7) / 8 →
      (pack_octets_aux fuel bits).getD k 0 =
        ∑ j ∈ Finset.range 8, (if bits.getD (8 * k + j) false then 2 ^ j else 0) := by
  intro fuel
  induction fuel with
  | zero =>
      intro bits k h hk
      have : bits = [] := by
        cases bits with
        | nil => rfl
        | cons a t => simp at h
      subst this; simp at hk
  | succ f ih =>
      intro bits k h hk
      cases bits with
      | nil => simp at hk
      | cons a t =>
          cases k with
          | zero =>
              simp only [pack_octets_aux, List.getD_cons_zero]
              rw [byte_of_bits_sum ((a :: t).take 8) 8 (by simp)]
              refine Finset.sum_congr rfl fun j hj => ?_
              have hj8 : j < 8 := Finset.mem_range.1 hj
              rw [getD_take_of_lt _ _ _ _ hj8]
              simp
          | succ k' =>
              have hdrop : ((a :: t).drop 8).length ≤ f := by
                simp only [List.length_drop, List.length_cons]
                simp only [List.length_cons] at h
                omega
              have hk' : k' < (((a :: t).drop 8).length + 7) / 8 := by
                simp only [List.length_drop, List.length_cons]
                simp only [List.length_cons] at hk
                omega
              simp only [pack_octets_aux, List.getD_cons_succ, ih _ _ hdrop hk']
              refine Finset.sum_congr rfl fun j _ => ?_
              rw [getD_drop_add]
              have hidx : 8 + (8 * k' + j) = 8 * (k' + 1) + j := by omega
              rw [hidx]

theorem pack_octets_getD (bits : List Bool) (k : ℕ) (hk : k < (bits.length + 7) / 8) :
    (pack_octets bits).getD k 0 =
      ∑ j ∈ Finset.range 8, (if bits.getD (8 * k + j) false then 2 ^ j else 0) :=
  pack_octets_aux_getD bits.length bits k le_rfl hk

theorem add_record_eq_none_iff (bits : List Bool) :
    add_record bits = none ↔ bits.length < 48 := by
  simp only [add_record]
  split <;> simp_all

theorem add_record_isSome_iff (bits : List Bool) :
    (add_record bits).isSome ↔ 48 ≤ bits.length := by
  simp only [add_record]
  split <;> simp_all <;> omega

theorem add_record_some_length (bits : List Bool) (r : List Nat)
    (h : add_record bits = some r) :
    5 ≤ r.length ∧ r.length ≤ (bits.length + 7) / 8 := by
  simp only [add_record] at h
  split at h
  · exact absurd h (by simp)
  · rename_i hge
    have h48 : 48 ≤ bits.length := by omega
    have hlen := pack_octets_length bits
    have hge6 : 6 ≤ (pack_octets bits).length := by rw [hlen]; omega
    simp only [Option.some.injEq] at h
    subst h
    split
    · constructor
      · simp only [List.length_dropLast]; omega
      · simp only [List.length_dropLast]; omega
    · constructor
      · omega
      · omega

/-! ### Claims C1, C2, C10 -/

/-- Claim C1 counterexample: for the 49-bit buffer of 48 zero bits followed by a
one bit, the assembled bytes (before trailing-zero stripping) are seven, not
`floor(49/8) = 6`: the leftover bit is packed into a final partial byte instead
of being discarded. -/
theorem c1_counterexample :
    pack_octets (List.replicate 48 false ++ [true]) = [0, 0, 0, 0, 0, 0, 1] ∧
    (pack_octets (List.replicate 48 false ++ [true])).length ≠
      (List.replicate 48 false ++ [true]).length / 8 := by
  decide

/-- Claim C1 (amended): for every finalized bit buffer of length `N ≥ 48`, the
assembled record (before trailing-zero-byte stripping) consists of exactly
`ceil(N/8)` bytes, where the k-th byte packs bits `8k..8k+7` with the first
collected bit of each group as the low-order bit; the `N mod 8` leftover bits
are packed into a final partial byte whose missing high-order bits are zero,
rather than being discarded. -/
theorem c1_amended (bits : List Bool) (h : 48 ≤ bits.length) :
    (pack_octets bits).length = (bits.length + 7) / 8 ∧
    ∀ k, k < (bits.length + 7) / 8 →
      (pack_octets bits).getD k 0 =
        ∑ j ∈ Finset.range 8, (if bits.getD (8 * k + j) false then 2 ^ j else 0) :=
  ⟨pack_octets_length bits, fun k hk => pack_octets_getD bits k hk⟩

/-- Witness for `c1_amended` at the concrete 49-bit buffer. -/
theorem c1_witness :
    (pack_octets (List.replicate 48 false ++ [true])).length = 7 ∧
    (pack_octets (List.replicate 48 false ++ [true])).getD 6 0 =
      ∑ j ∈ Finset.range 8,
        (if (List.replicate 48 false ++ [true]).getD (8 * 6 + j) false then 2 ^ j else 0) := by
  have h := c1_amended (List.replicate 48 false ++ [true]) (by decide)
  exact ⟨by rw [h.1]; decide, h.2 6 (by decide)⟩

/-- Claim C2: finalization clears the bit buffer in all cases and appends a
record exactly when the buffer holds at least 48 bits; a 47-bit buffer leaves
the record list unchanged, and a 48-bit buffer yields exactly one record of at
most 6 bytes after trailing-zero-byte stripping. -/
theorem c2_finalize_record (s : TapeState) :
    (finalize s).bits = [] ∧
    (finalize s).records = s.records ++ (add_record s.bits).toList ∧
    ((add_record s.bits).isSome ↔ 48 ≤ s.bits.length) ∧
    (s.bits.length = 47 → finalize s = { s with bits := [] }) ∧
    (s.bits.length = 48 → ∃ r, (finalize s).records = s.records ++ [r] ∧ r.length ≤ 6) := by
  refine ⟨?_, ?_, add_record_isSome_iff s.bits, ?_, ?_⟩
  · unfold finalize; cases h : add_record s.bits <;> simp
  · unfold finalize; cases h : add_record s.bits <;> simp
  · intro h47
    have : add_record s.bits = none := (add_record_eq_none_iff s.bits).2 (by omega)
    unfold finalize; rw [this]
  · intro h48
    have hs : (add_record s.bits).isSome := (add_record_isSome_iff s.bits).2 (by omega)
    obtain ⟨r, hr⟩ := Option.isSome_iff_exists.1 hs
    refine ⟨r, ?_, ?_⟩
    · unfold finalize; rw [hr]
    · have := add_record_some_length s.bits r hr
      omega

/-- Witness for `c2_finalize_record`: a 47-bit buffer yields zero records, a
48-bit buffer exactly one of at most 6 bytes. -/
theorem c2_witness :
    finalize ⟨1, List.replicate 47 false, [], 0⟩ = ⟨1, [], [], 0⟩ ∧
    (∃ r, (finalize ⟨1, List.replicate 48 false, [], 0⟩).records = [] ++ [r] ∧
      r.length ≤ 6) :=
  ⟨(c2_finalize_record ⟨1, List.replicate 47 false, [], 0⟩).2.2.2.1 (by decide),
   (c2_finalize_record ⟨1, List.replicate 48 false, [], 0⟩).2.2.2.2 (by decide)⟩

theorem finalize_records_mem (s : TapeState) (r : List Nat)
    (h : r ∈ (finalize s).records) :
    r ∈ s.records ∨ add_record s.bits = some r := by
  unfold finalize at h
  cases ha : add_record s.bits <;> rw [ha] at h
  · exact Or.inl h
  · rcases List.mem_append.1 h with h' | h'
    · exact Or.inl h'
    · simp at h'; subst h'; exact Or.inr rfl

theorem stepEdge_records_cases (rate : ℚ) (s : TapeState) (e : Nat × Int) :
    (stepEdge rate s e).records = s.records ∨
    (stepEdge rate s e).records = (finalize s).records := by
  unfold stepEdge
  split
  · split
    · exact Or.inr rfl
    · exact Or.inr rfl
  · split
    · exact Or.inl rfl
    · exact Or.inl rfl

theorem processEdges_records_inv (P : List Nat → Prop)
    (hP : ∀ (bits : List Bool) (r : List Nat), add_record bits = some r → P r)
    (rate : ℚ) :
    ∀ (edges : List (Nat × Int)) (s : TapeState),
      (∀ r ∈ s.records, P r) → ∀ r ∈ (processEdges rate s edges).records, P r := by
  intro edges
  induction edges with
  | nil => intro s hs; exact hs
  | cons e es ih =>
      intro s hs r hr
      have hstep : ∀ r ∈ (stepEdge rate s e).records, P r := by
        intro r' hr'
        rcases stepEdge_records_cases rate s e with hc | hc
        · exact hs r' (hc ▸ hr')
        · rcases finalize_records_mem s r' (hc ▸ hr') with h' | h'
          · exact hs r' h'
          · exact hP s.bits r' h'
      exact ih (stepEdge rate s e) hstep r hr

/-- Claim C10: every record produced by `add_record` is at least 5 bytes (48
bits pack into at least 6 bytes and at most one trailing zero byte is
stripped); hence every record ever appended to the record list is nonempty, so
the first-byte, last-byte and interior accesses of `report_record` are in
range. -/
theorem c10_min_length :
    (∀ (bits : List Bool) (r : List Nat), add_record bits = some r →
       5 ≤ r.length ∧ r ≠ []) ∧
    (∀ (s : TapeState) (r : List Nat), r ∈ (finalize s).records →
       r ∈ s.records ∨ (5 ≤ r.length ∧ r ≠ [])) ∧
    (∀ (rate : ℚ) (edges : List (Nat × Int)) (r : List Nat),
       r ∈ (analyze_edges rate edges).records → 5 ≤ r.length ∧ r ≠ []) := by
  have hbase : ∀ (bits : List Bool) (r : List Nat), add_record bits = some r →
      5 ≤ r.length ∧ r ≠ [] := by
    intro bits r h
    have h5 := (add_record_some_length bits r h).1
    exact ⟨h5, by intro he; subst he; simp at h5⟩
  refine ⟨hbase, ?_, ?_⟩
  · intro s r h
    rcases finalize_records_mem s r h with h' | h'
    · exact Or.inl h'
    · exact Or.inr (hbase s.bits r h')
  · intro rate edges r h
    unfold analyze_edges at h
    rcases finalize_records_mem _ r h with h' | h'
    · exact processEdges_records_inv (fun r => 5 ≤ r.length ∧ r ≠ []) hbase rate edges
        (initState rate) (by simp [initState]) r h'
    · exact hbase _ r h'

/-- Witness for `c10_min_length` on the record of a concrete 48-bit buffer. -/
theorem c10_witness : 5 ≤ ([0, 0, 0, 0, 0] : List Nat).length ∧
    ([0, 0, 0, 0, 0] : List Nat) ≠ [] :=
  c10_min_length.1 (List.replicate 48 false) [0, 0, 0, 0, 0] (by decide)

/-! ### Claims C3, C4, C9 -/

/-- Claim C3: an edge whose pulse width is below `EDGE` times the current
bit-time estimate, arriving while the bit buffer holds more than 7 bits, is
dropped with the whole state (last edge position, estimate, buffer, records)
unchanged; consequently inserting such an edge into an edge stream at that
point leaves the result of the whole analysis unchanged.  (The estimate is
nonnegative in any run, recorded here as the hypothesis `htb`.) -/
theorem c3_glitch (rate : ℚ) (s : TapeState) (e : Nat × Int)
    (htb : 0 ≤ s.tbit)
    (hpw : ((e.1 : ℚ) - (s.nbr_priv : ℚ)) < EDGE * s.tbit)
    (hbits : 7 < s.bits.length) :
    stepEdge rate s e = s ∧
    ∀ (xs ys : List (Nat × Int)),
      processEdges rate (initState rate) xs = s →
      analyze_edges rate (xs ++ e :: ys) = analyze_edges rate (xs ++ ys) := by
  have hE : EDGE * s.tbit ≤ 4 * s.tbit := by
    apply mul_le_mul_of_nonneg_right _ htb
    norm_num [EDGE]
  have hnb : ¬ (((e.1 : ℚ) - (s.nbr_priv : ℚ)) > 4 * s.tbit) := by
    push_neg
    linarith
  have hstep : stepEdge rate s e = s := by
    unfold stepEdge
    rw [if_neg hnb, if_pos ⟨hpw, hbits⟩]
  refine ⟨hstep, fun xs ys hxs => ?_⟩
  unfold analyze_edges processEdges
  unfold processEdges at hxs
  rw [List.foldl_append, List.foldl_append, List.foldl_cons, hxs, hstep]

/-- Witness for `c3_glitch`: after eight clean unit-width data edges the
buffer holds 8 bits; a repeated edge at the same position (pulse width 0) is
dropped, and the whole analysis agrees with the stream without it. -/
theorem c3_witness :
    analyze_edges 225
        ([(1, 1), (2, 1), (3, 1), (4, 1), (5, 1), (6, 1), (7, 1), (8, 1)] ++
          (8, 1) :: [(9, 1)]) =
      analyze_edges 225
        ([(1, 1), (2, 1), (3, 1), (4, 1), (5, 1), (6, 1), (7, 1), (8, 1)] ++
          [(9, 1)]) := by
  have hs : processEdges 225 (initState 225)
      [(1, 1), (2, 1), (3, 1), (4, 1), (5, 1), (6, 1), (7, 1), (8, 1)] =
      ⟨1, List.replicate 8 false, [], 8⟩ := by
    norm_num [processEdges, initState, stepEdge, finalize, add_record, EDGE, BPS,
      tbit_update, AVG]
    decide
  exact (c3_glitch 225 ⟨1, List.replicate 8 false, [], 8⟩ (8, 1)
    (by norm_num) (by norm_num [EDGE]) (by decide)).2 _ [(9, 1)] hs

/-- Claim C4: an edge whose pulse width exceeds 4 times the current bit-time
estimate finalizes the buffer as a candidate record; a rising edge
(`sign = 1`) then restarts synchronization (last edge position set to this
edge, buffer reset to the single seed bit `'0'`, estimate reset to the
a-priori seed `rate / BPS`), while any other sign changes nothing beyond the
finalization. -/
theorem c4_boundary (rate : ℚ) (s : TapeState) (e : Nat × Int)
    (hpw : ((e.1 : ℚ) - (s.nbr_priv : ℚ)) > 4 * s.tbit) :
    stepEdge rate s e =
      if e.2 = 1 then
        { finalize s with nbr_priv := e.1, bits := [false], tbit := rate / BPS }
      else finalize s := by
  unfold stepEdge
  rw [if_pos hpw]

/-- Witness for `c4_boundary`: a wide pulse with a rising edge resets the
state; the same pulse with a falling edge only finalizes. -/
theorem c4_witness :
    stepEdge 225 ⟨1, [], [], 0⟩ (5, 1) = ⟨1, [false], [], 5⟩ ∧
    stepEdge 225 ⟨1, [], [], 0⟩ (5, -1) = ⟨1, [], [], 0⟩ := by
  constructor
  · rw [c4_boundary 225 ⟨1, [], [], 0⟩ (5, 1) (by norm_num)]
    norm_num [finalize, add_record, BPS]
  · rw [c4_boundary 225 ⟨1, [], [], 0⟩ (5, -1) (by norm_num)]
    norm_num [finalize, add_record]

/-- Claim C9: in the data case the estimate becomes
`tbit + (pulse_width - tbit) / 2`, the average of the old estimate and the
observed width; for a constant observed width `T` the distance to `T` halves
with each accepted bit, so after `n` bits it is `|t - T| / 2 ^ n`. -/
theorem c9_pll (rate : ℚ) (s : TapeState) (e : Nat × Int) (t T : ℚ) (n : ℕ)
    (hb : ¬ (((e.1 : ℚ) - (s.nbr_priv : ℚ)) > 4 * s.tbit))
    (hg : ¬ (((e.1 : ℚ) - (s.nbr_priv : ℚ)) < EDGE * s.tbit ∧ 7 < s.bits.length)) :
    (stepEdge rate s e).tbit = tbit_update s.tbit ((e.1 : ℚ) - (s.nbr_priv : ℚ)) ∧
    tbit_update t T = (t + T) / 2 ∧
    |tbit_update t T - T| = |t - T| / 2 ∧
    |(fun u => tbit_update u T)^[n] t - T| = |t - T| / 2 ^ n := by
  have havg : ∀ u : ℚ, tbit_update u T = (u + T) / 2 := by
    intro u; unfold tbit_update AVG; ring
  have habs : ∀ u : ℚ, |tbit_update u T - T| = |u - T| / 2 := by
    intro u
    rw [havg]
    have h2 : (u + T) / 2 - T = (u - T) / 2 := by ring
    rw [h2, abs_div]
    norm_num
  refine ⟨?_, havg t, habs t, ?_⟩
  · unfold stepEdge
    rw [if_neg hb, if_neg hg]
  · induction n generalizing t with
    | zero => simp
    | succ m ih =>
        rw [Function.iterate_succ_apply']
        rw [habs, ih, pow_succ]
        ring

/-- Witness for `c9_pll` at a concrete state, edge, and constant width. -/
theorem c9_witness :
    (stepEdge 225 ⟨1, [], [], 0⟩ (2, 1)).tbit = tbit_update 1 2 ∧
    tbit_update 3 5 = 4 ∧
    |tbit_update 3 5 - 5| = 1 ∧
    |(fun u : ℚ => tbit_update u 5)^[2] 3 - 5| = 1 / 2 := by
  have h := c9_pll 225 ⟨1, [], [], 0⟩ (2, 1) 3 5 2 (by norm_num) (by norm_num [EDGE])
  refine ⟨?_, ?_, ?_, ?_⟩
  · have h1 := h.1
    norm_num at h1
    convert h1 using 2
  · rw [h.2.1]; norm_num
  · rw [h.2.2.1]; norm_num
  · rw [h.2.2.2]; norm_num

/-! ### Claim C7 -/

theorem write_tapfile_foldl (records : List (List Nat)) :
    ∀ out : List Nat,
      records.foldl
        (fun out rec =>
          out ++ le32 rec.length ++ rec ++
            (if rec.length % 2 = 1 then [0] else []) ++ le32 rec.length)
        out = out ++ (records.map tap_block).join := by
  induction records with
  | nil => intro out; simp
  | cons r rs ih =>
      intro out
      simp only [List.foldl_cons, List.map_cons, List.join, ih, tap_block]
      simp [List.append_assoc]

/-- Claim C7: the tape-image writer emits, for each record in order, the 4-byte
little-endian length, the raw bytes, one zero pad byte exactly when the length
is odd, and the length again; after all records a single end-of-medium marker
`0xFFFFFFFF`, and nothing else. -/
theorem c7_tapfile (records : List (List Nat)) :
    write_tapfile records = (records.map tap_block).join ++ [0xff, 0xff, 0xff, 0xff] := by
  unfold write_tapfile
  rw [write_tapfile_foldl records []]
  simp

/-! ### Claim C8 -/

theorem newSign_inband (p x : Int) (h1 : -THRESHOLD ≤ x) (h2 : x ≤ THRESHOLD) :
    newSign p x = p := by
  unfold newSign THRESHOLD
  unfold THRESHOLD at h1 h2
  rw [if_neg (by omega), if_neg (by omega)]

theorem zero_crossings_map_fst_sublist (sound : List Nat) :
    ∀ (idxs : List Nat) (prev : Int),
      ((zero_crossings sound idxs prev).map Prod.fst).Sublist idxs := by
  intro idxs
  induction idxs with
  | nil => intro prev; simp [zero_crossings]
  | cons nbr rest ih =>
      intro prev
      simp only [zero_crossings]
      split
      · simpa using (ih _).cons₂ nbr
      · exact (ih _).cons nbr

theorem zero_crossings_signs_chain (sound : List Nat) :
    ∀ (idxs : List Nat) (prev : Int),
      List.Chain' (· ≠ ·) (prev :: (zero_crossings sound idxs prev).map Prod.snd) := by
  intro idxs
  induction idxs with
  | nil => intro prev; simp [zero_crossings]
  | cons nbr rest ih =>
      intro prev
      simp only [zero_crossings]
      split
      · rename_i h
        simp only [List.map_cons, List.chain'_cons]
        exact ⟨Ne.symm h, ih _⟩
      · rename_i h
        rw [not_not] at h
        rw [h]
        exact ih prev

theorem zero_crossings_step (sound : List Nat) (nbr : Nat) (rest : List Nat)
    (prev : Int) :
    zero_crossings sound (nbr :: rest) prev =
      if newSign prev (pySample sound nbr) ≠ prev then
        (nbr, newSign prev (pySample sound nbr)) ::
          zero_crossings sound rest (newSign prev (pySample sound nbr))
      else zero_crossings sound rest prev := by
  simp only [zero_crossings]
  split_ifs with h
  · rfl
  · rw [not_not] at h
    rw [h]

theorem zero_crossings_inband_not_mem (sound : List Nat) :
    ∀ (idxs : List Nat) (prev : Int) (q : Nat) (sg : Int),
      -THRESHOLD ≤ pySample sound q → pySample sound q ≤ THRESHOLD →
      (q, sg) ∉ zero_crossings sound idxs prev := by
  intro idxs
  induction idxs with
  | nil => intro prev q sg _ _; simp [zero_crossings]
  | cons nbr rest ih =>
      intro prev q sg h1 h2 hmem
      rw [zero_crossings_step] at hmem
      split_ifs at hmem with h
      · rcases List.mem_cons.1 hmem with heq | hmem'
        · have hq : q = nbr := congrArg Prod.fst heq
          subst hq
          exact h (newSign_inband prev _ h1 h2)
        · exact ih _ q sg h1 h2 hmem'
      · exact ih _ q sg h1 h2 hmem

theorem pyRange_pairwise (start stop step : Nat) (h : 0 < step) :
    (pyRange start stop step).Pairwise (· < ·) := by
  unfold pyRange
  generalize (stop - start + step - 1) / step = n
  induction n generalizing start with
  | zero => simp
  | succ m ih =>
      rw [List.range'_succ]
      refine List.pairwise_cons.2 ⟨fun x hx => ?_, ih (start + step)⟩
      obtain ⟨i, _, rfl⟩ := List.mem_range'.1 hx
      omega

/-- Claim C8: the edge detector's event stream has strictly increasing
positions; each emitted sign differs from the previously emitted one (0 before
any event); an event is emitted at a scanned sample exactly when the
hysteresis-updated sign differs from the previous sign; and a sample inside
the threshold band never causes an emission. -/
theorem c8_edge_detector (sound : List Nat) (offset span : Nat) (hspan : 0 < span) :
    (wav_iter sound offset span).Pairwise (fun a b : Nat × Int => a.1 < b.1) ∧
    List.Chain' (· ≠ ·) ((0 : Int) :: (wav_iter sound offset span).map Prod.snd) ∧
    (∀ (nbr : Nat) (rest : List Nat) (prev : Int),
      zero_crossings sound (nbr :: rest) prev =
        if newSign prev (pySample sound nbr) ≠ prev then
          (nbr, newSign prev (pySample sound nbr)) ::
            zero_crossings sound rest (newSign prev (pySample sound nbr))
        else zero_crossings sound rest prev) ∧
    (∀ (q : Nat) (sg prev : Int) (idxs : List Nat),
      -THRESHOLD ≤ pySample sound q → pySample sound q ≤ THRESHOLD →
      (q, sg) ∉ zero_crossings sound idxs prev) := by
  refine ⟨?_, zero_crossings_signs_chain sound _ 0,
    fun nbr rest prev => zero_crossings_step sound nbr rest prev,
    fun q sg prev idxs h1 h2 => zero_crossings_inband_not_mem sound idxs prev q sg h1 h2⟩
  have hsub := zero_crossings_map_fst_sublist sound (pyRange offset sound.length span) 0
  have hpr := pyRange_pairwise offset sound.length span hspan
  have := hpr.sublist hsub
  rwa [List.pairwise_map] at this

/-- Witness for `c8_edge_detector` on a concrete four-sample track. -/
theorem c8_witness :
    (wav_iter [0, 0, 16, 39, 240, 216, 0, 0] 0 2).Pairwise
      (fun a b : Nat × Int => a.1 < b.1) ∧
    ((0 : Nat), (1 : Int)) ∉ zero_crossings [0, 0, 16, 39, 240, 216, 0, 0] [0, 2, 4, 6] 0 :=
  ⟨(c8_edge_detector [0, 0, 16, 39, 240, 216, 0, 0] 0 2 (by decide)).1,
   (c8_edge_detector [0, 0, 16, 39, 240, 216, 0, 0] 0 2 (by decide)).2.2.2 0 1 0
     [0, 2, 4, 6] (by decide) (by decide)⟩

/-! ### Claim C5 -/

theorem decDigit_ne_B (n : Nat) : decDigit n ≠ 'B' := by
  unfold decDigit
  split <;> decide

theorem hexDigit_ne_B (n : Nat) : hexDigit n ≠ 'B' := by
  unfold hexDigit
  split <;> decide

theorem natDecCharsAux_ne_B :
    ∀ (fuel n : Nat), ∀ c ∈ natDecCharsAux fuel n, c ≠ 'B' := by
  intro fuel
  induction fuel with
  | zero => intro n c hc; simp [natDecCharsAux] at hc
  | succ f ih =>
      intro n c hc
      simp only [natDecCharsAux] at hc
      split at hc
      · simp at hc; subst hc; exact decDigit_ne_B n
      · rcases List.mem_append.1 hc with h | h
        · exact ih (n / 10) c h
        · simp at h; subst h; exact decDigit_ne_B n

theorem lenText_ne_B (n : Nat) : ∀ c ∈ lenText n, c ≠ 'B' := by
  intro c hc
  unfold lenText at hc
  rcases List.mem_append.1 hc with h | h
  · rcases List.mem_append.1 h with h' | h'
    · have := List.eq_of_mem_replicate h'
      subst this; decide
    · exact natDecCharsAux_ne_B _ _ c h'
  · have hb : ∀ c ∈ " bytes".data, c ≠ 'B' := by decide
    exact hb c h

theorem byteHexChars_ne_B (b : Nat) : ∀ c ∈ byteHexChars b, c ≠ 'B' := by
  intro c hc
  unfold byteHexChars at hc
  rcases List.mem_cons.1 hc with h | h
  · subst h; exact hexDigit_ne_B _
  · simp at h; subst h; exact hexDigit_ne_B _

theorem bytesHex_ne_B : ∀ (bs : List Nat), ∀ c ∈ bytesHex bs, c ≠ 'B' := by
  intro bs
  induction bs with
  | nil => intro c hc; simp [bytesHex] at hc
  | cons b t ih =>
      intro c hc
      simp only [bytesHex, List.foldr_cons] at hc
      rcases List.mem_append.1 hc with h | h
      · exact byteHexChars_ne_B b c h
      · exact ih c h

theorem hexPart_ne_B (octets : List Nat) : ∀ c ∈ hexPart octets, c ≠ 'B' := by
  intro c hc
  unfold hexPart at hc
  split at hc
  · exact bytesHex_ne_B _ c hc
  · rcases List.mem_append.1 hc with h | h
    · rcases List.mem_append.1 h with h' | h'
      · exact bytesHex_ne_B _ c h'
      · simp at h'; subst h'; decide
    · exact bytesHex_ne_B _ c h

theorem recordSummaryBase_ne_B (octets : List Nat) :
    ∀ c ∈ recordSummaryBase octets, c ≠ 'B' := by
  intro c hc
  unfold recordSummaryBase at hc
  rcases List.mem_append.1 hc with h | h
  · rcases List.mem_append.1 h with h' | h'
    · rcases List.mem_append.1 h' with h'' | h''
      · exact lenText_ne_B _ c h''
      · have hb : ∀ c ∈ " [".data, c ≠ 'B' := by decide
        exact hb c h''
    · exact hexPart_ne_B octets c h'
  · have hb : ∀ c ∈ "]".data, c ≠ 'B' := by decide
    exact hb c h

theorem not_head_infix_append (c : Char) (p l₁ l₂ : List Char)
    (hc : ∀ x ∈ l₁, x ≠ c) :
    ((c :: p) <:+: l₁ ++ l₂) ↔ ((c :: p) <:+: l₂) := by
  induction l₁ with
  | nil => simp
  | cons a t ih =>
      have ha : a ≠ c := hc a (by simp)
      have ht : ∀ x ∈ t, x ≠ c := fun x hx => hc x (by simp [hx])
      rw [List.cons_append, List.infix_cons_iff, ih ht]
      constructor
      · rintro (hp | hi)
        · exact absurd (List.cons_prefix_cons.1 hp).1 (Ne.symm ha)
        · exact hi
      · exact Or.inr

theorem infix_append_left_of (p l₁ l₂ : List Char) (h : p <:+: l₂) :
    p <:+: l₁ ++ l₂ :=
  h.trans (List.suffix_append l₁ l₂).isInfix

theorem infix_append_right_of (p l₁ l₂ : List Char) (h : p <:+: l₁) :
    p <:+: l₁ ++ l₂ :=
  h.trans (List.prefix_append l₁ l₂).isInfix

theorem ite_data_cases (P : Prop) [Decidable P] (a : List Char) :
    (if P then a else []) = a ∨ (if P then a else []) = [] := by
  split
  · exact Or.inl rfl
  · exact Or.inr rfl

/-- Claim C5: the summary of a non-empty record decomposes into a flag-free
base followed by exactly the applicable flags in the fixed order preamble,
postamble, CRC; and it contains `Bad_preamble` iff the first byte is not
`0xAA`, `Bad_postamble` iff the last byte is not `0xAA`, and `Bad_CRC` iff the
CRC-16/ARC over the interior bytes is nonzero. -/
theorem c5_report (octets : List Nat) (hne : octets ≠ []) :
    report_record octets =
      recordSummaryBase octets ++
        ((if octets.headI ≠ 0xaa then " Bad_preamble".data else []) ++
         (if octets.getLastD 0 ≠ 0xaa then " Bad_postamble".data else []) ++
         (if crcfunc ((octets.drop 1).dropLast) ≠ 0 then " Bad_CRC".data else [])) ∧
    ("Bad_preamble".data <:+: report_record octets ↔ octets.headI ≠ 0xaa) ∧
    ("Bad_postamble".data <:+: report_record octets ↔ octets.getLastD 0 ≠ 0xaa) ∧
    ("Bad_CRC".data <:+: report_record octets ↔
      crcfunc ((octets.drop 1).dropLast) ≠ 0) := by
  have hbase := recordSummaryBase_ne_B octets
  have hrw : report_record octets =
      recordSummaryBase octets ++
        ((if octets.headI ≠ 0xaa then " Bad_preamble".data else []) ++
         (if octets.getLastD 0 ≠ 0xaa then " Bad_postamble".data else []) ++
         (if crcfunc ((octets.drop 1).dropLast) ≠ 0 then " Bad_CRC".data else [])) := by
    unfold report_record
    simp [List.append_assoc]
  refine ⟨hrw, ?_, ?_, ?_⟩
  · rw [hrw, show "Bad_preamble".data = 'B' :: "ad_preamble".data from rfl,
      not_head_infix_append 'B' _ _ _ hbase]
    by_cases hp : octets.headI ≠ 0xaa
    · rw [if_pos hp]
      exact iff_of_true
        (infix_append_right_of _ _ _ (infix_append_right_of _ _ _ (by decide))) hp
    · rw [if_neg hp]
      refine iff_of_false ?_ hp
      rcases ite_data_cases (octets.getLastD 0 ≠ 0xaa) " Bad_postamble".data with h2 | h2 <;>
        rcases ite_data_cases (crcfunc ((octets.drop 1).dropLast) ≠ 0) " Bad_CRC".data
          with h3 | h3 <;>
        rw [h2, h3] <;> decide
  · rw [hrw, show "Bad_postamble".data = 'B' :: "ad_postamble".data from rfl,
      not_head_infix_append 'B' _ _ _ hbase]
    by_cases hq : octets.getLastD 0 ≠ 0xaa
    · rw [if_pos hq]
      exact iff_of_true
        (infix_append_right_of _ _ _ (infix_append_left_of _ _ _ (by decide))) hq
    · rw [if_neg hq]
      refine iff_of_false ?_ hq
      rcases ite_data_cases (octets.headI ≠ 0xaa) " Bad_preamble".data with h1 | h1 <;>
        rcases ite_data_cases (crcfunc ((octets.drop 1).dropLast) ≠ 0) " Bad_CRC".data
          with h3 | h3 <;>
        rw [h1, h3] <;> decide
  · rw [hrw, show "Bad_CRC".data = 'B' :: "ad_CRC".data from rfl,
      not_head_infix_append 'B' _ _ _ hbase]
    by_cases hr : crcfunc ((octets.drop 1).dropLast) ≠ 0
    · rw [if_pos hr]
      exact iff_of_true (infix_append_left_of _ _ _ (by decide)) hr
    · rw [if_neg hr]
      refine iff_of_false ?_ hr
      rcases ite_data_cases (octets.headI ≠ 0xaa) " Bad_preamble".data with h1 | h1 <;>
        rcases ite_data_cases (octets.getLastD 0 ≠ 0xaa) " Bad_postamble".data
          with h2 | h2 <;>
        rw [h1, h2] <;> decide

/-- Witness for `c5_report` on a concrete record with a bad preamble, a good
postamble and a bad CRC. -/
theorem c5_witness :
    ("Bad_preamble".data <:+: report_record [0, 1, 2, 0xaa]) ∧
    ¬ ("Bad_postamble".data <:+: report_record [0, 1, 2, 0xaa]) ∧
    ("Bad_CRC".data <:+: report_record [0, 1, 2, 0xaa]) := by
  have h := c5_report [0, 1, 2, 0xaa] (by decide)
  exact ⟨h.2.1.mpr (by decide),
    fun hc => absurd (h.2.2.1.mp hc) (by decide),
    h.2.2.2.mpr (by decide)⟩

/-! ### Claim C6 -/

theorem file_list_aux_no_error :
    ∀ (fuel : Nat) (head : List Nat) (index : Nat),
      index < head.length →
      head.length + 26 ≤ index + 26 * fuel →
      (file_list_aux fuel head index).2.2 = none := by
  intro fuel
  induction fuel with
  | zero => intro head index h1 h2; omega
  | succ f ih =>
      intro head index h1 h2
      simp only [file_list_aux]
      rw [if_neg (by omega)]
      split
      · rename_i hg
        cases hfn : pyDecodeAscii ((head.drop index).take 10) with
        | none => simp [hfn]
        | some fn =>
            cases hext : pyDecodeAscii ((head.drop (index + 10)).take 3) with
            | none => simp [hfn, hext]
            | some ext =>
                simp only [hfn, hext]
                exact ih head (index + 26) (by omega) (by omega)
      · rfl

theorem file_list_no_error (head : List Nat) (i : Nat) (h : i < head.length) :
    (file_list head i).2.2 = none :=
  file_list_aux_no_error (head.length + 1) head i h (by omega)

theorem file_list_decode_failure (head : List Nat) (i : Nat)
    (h1 : i < head.length)
    (hg : 0x20 < head.getD i 0 ∧ head.getD i 0 < 0x6e ∧ i + 29 ≤ head.length)
    (hdec : pyDecodeAscii ((head.drop i).take 10) = none ∨
            pyDecodeAscii ((head.drop (i + 10)).take 3) = none) :
    file_list head i =
      ([], ["Börk", String.mk (bytesHex ((head.drop i).take 26))], none) := by
  unfold file_list
  simp only [file_list_aux]
  rw [if_neg (by omega), if_pos hg]
  rcases hdec with h | h
  · simp [h]
  · cases hfn : pyDecodeAscii ((head.drop i).take 10) with
    | none => simp [hfn]
    | some fn => simp [hfn, h]

/-- Claim C6 counterexample: on the 5-byte first record `aa 00 00 00 00` (valid
magic, shorter than 68 bytes) the header interpreter does not stop the file
listing cleanly after the label, as the claim describes: the slot-guard access
`head[67]` raises IndexError, which propagates and fails the run. -/
theorem c6_counterexample :
    interpret_tape_header [0xaa, 0, 0, 0, 0] =
      (["Tape label:", "\t\x00", "File list:"], [], some "IndexError") := by
  decide

/-- Claim C6 (amended): no header fields are produced when the magic bytes do
not match; otherwise, provided the record has at least 68 bytes (else the
slot-guard access `head[67]` raises IndexError) and the 50 label bytes at
offset 4 decode as ASCII (else the uncaught decode error propagates), the
interpreter yields the trimmed label and the file list and terminates without
error; the slot loop never fails once its first index is in range, and on the
first non-ASCII-decodable slot it reports the failure and the slot's raw hex
and stops the listing without error. -/
theorem c6_amended :
    (∀ head : List Nat,
       (head.getD 0 0 ≠ 0xaa ∨ head.getD 1 0 ≠ 0 ∨ head.getD 2 0 ≠ 0) →
       interpret_tape_header head = ([], [], none)) ∧
    (∀ (head : List Nat) (label : List Char),
       head.getD 0 0 = 0xaa → head.getD 1 0 = 0 → head.getD 2 0 = 0 →
       68 ≤ head.length →
       pyDecodeAscii ((head.drop 4).take 50) = some label →
       interpret_tape_header head =
         ("Tape label:" :: ("\t" ++ String.mk (pyRstrip label)) :: "File list:"
             :: (file_list head 67).1,
          (file_list head 67).2.1, none)) ∧
    (∀ (head : List Nat) (i : Nat), i < head.length →
       (file_list head i).2.2 = none) ∧
    (∀ (head : List Nat) (i : Nat),
       i < head.length →
       0x20 < head.getD i 0 ∧ head.getD i 0 < 0x6e ∧ i + 29 ≤ head.length →
       (pyDecodeAscii ((head.drop i).take 10) = none ∨
        pyDecodeAscii ((head.drop (i + 10)).take 3) = none) →
       file_list head i =
         ([], ["Börk", String.mk (bytesHex ((head.drop i).take 26))], none)) := by
  refine ⟨?_, ?_, file_list_no_error, file_list_decode_failure⟩
  · intro head h
    unfold interpret_tape_header
    split_ifs with h0 h1 h2
    · rfl
    · rfl
    · rfl
    · exact absurd h (by tauto)
  · intro head label h0 h1 h2 hlen hdec
    unfold interpret_tape_header
    rw [if_neg (not_not_intro h0), if_neg (not_not_intro h1), if_neg (not_not_intro h2)]
    simp only [hdec]
    rw [file_list_no_error head 67 (by omega)]

/-- Witness for `c6_amended` on a 68-byte record with valid magic and an
all-`'A'` label field. -/
theorem c6_witness :
    interpret_tape_header ([0xaa, 0, 0, 0] ++ List.replicate 64 65) =
      ("Tape label:" ::
          ("\t" ++ String.mk (pyRstrip (List.replicate 50 'A'))) :: "File list:"
          :: (file_list ([0xaa, 0, 0, 0] ++ List.replicate 64 65) 67).1,
       (file_list ([0xaa, 0, 0, 0] ++ List.replicate 64 65) 67).2.1, none) :=
  c6_amended.2.1 ([0xaa, 0, 0, 0] ++ List.replicate 64 65) (List.replicate 50 'A')
    (by decide) (by decide) (by decide) (by decide) (by decide)

end CometTape
